import Mathlib

/-!
Shallow embedding of the ConceptNet ingestion pipeline
(`services/data-loader/loader-improved.py`) and proofs about it.

URIs are Lean `String`s. Python's `uri.split('/')` and `'/'.join(...)` are
modelled by structurally recursive char-level functions `splitChar` and
`List.intercalate ['/']`, which agree with Python's semantics for a
single-character separator: `''.split('/') == ['']`, empty pieces are kept,
and `'/'.join` is the inverse on split output.
-/

namespace ConceptNet

/-- Python `s.split(sep)` for a one-character separator, on char lists:
always returns at least one (possibly empty) piece. -/
def splitChar (sep : Char) : List Char → List (List Char)
  | [] => [[]]
  | c :: cs =>
    if c = sep then [] :: splitChar sep cs
    else
      match splitChar sep cs with
      | [] => [[c]]
      | p :: ps => (c :: p) :: ps

/-- The slash-separated pieces of a URI, as in Python `uri.split('/')`. -/
def uriPieces (uri : String) : List String :=
  (splitChar '/' uri.toList).map (fun cs => String.mk cs)

/-- Python `'/'.join(l)`. -/
def joinSlash (l : List String) : String :=
  String.mk (List.intercalate ['/'] (l.map String.toList))

/-- Python `uri.startswith('http://') or uri.startswith('https://')`. -/
def startsWithWebScheme (uri : String) : Bool :=
  List.isPrefixOf "http://".toList uri.toList ||
    List.isPrefixOf "https://".toList uri.toList

/-- `uri_prefixes` from loader-improved.py: all slash-joined leading piece
sequences with at least `min_pieces` pieces (empty joins skipped); a web
address is returned unexpanded as a single-element list. -/
def uri_prefixes (uri : String) (min_pieces : Nat := 2) : List String :=
  if startsWithWebScheme uri then
    [uri]
  else
    let pieces := uriPieces uri
    (List.range' min_pieces (pieces.length + 1 - min_pieces)).filterMap
      (fun i =>
        let p := joinSlash (pieces.take i)
        if p = "" then none else some p)

/-- `is_symmetric_relation` from loader-improved.py: membership in the fixed
set of symmetric relation URIs. -/
def is_symmetric_relation (rel : String) : Bool :=
  rel ∈ ["/r/Antonym", "/r/DistinctFrom", "/r/EtymologicallyRelatedTo",
         "/r/LocatedNear", "/r/RelatedTo", "/r/SimilarTo", "/r/Synonym"]

/-! ## JSON values and `json.dumps(..., sort_keys=True)` -/

/-- JSON values, as produced by Python `json.loads`: objects keep their
textual field order as an association list (a parsed object has no
duplicate keys). -/
inductive Json where
  | null : Json
  | bool (b : Bool) : Json
  | num (q : ℚ) : Json
  | str (s : String) : Json
  | arr (elems : List Json) : Json
  | obj (fields : List (String × Json)) : Json

/-- Stable insertion of a keyed field into a key-sorted field list. -/
def insertKv (p : String × Json) : List (String × Json) → List (String × Json)
  | [] => [p]
  | q :: qs => if p.1 ≤ q.1 then p :: q :: qs else q :: insertKv p qs

/-- Stable sort of an object's fields by key, as Python `sorted` on dict
items (all keys distinct). -/
def sortFieldsByKey (l : List (String × Json)) : List (String × Json) :=
  l.foldr insertKv []

mutual

/-- Recursively sort every object's fields by key: the canonical form
serialized by `json.dumps(..., sort_keys=True)`. -/
def sortKeysJson : Json → Json
  | .null => .null
  | .bool b => .bool b
  | .num q => .num q
  | .str s => .str s
  | .arr es => .arr (sortKeysList es)
  | .obj kvs => .obj (sortFieldsByKey (sortKeysFields kvs))

def sortKeysList : List Json → List Json
  | [] => []
  | j :: js => sortKeysJson j :: sortKeysList js

def sortKeysFields : List (String × Json) → List (String × Json)
  | [] => []
  | (k, v) :: kvs => (k, sortKeysJson v) :: sortKeysFields kvs

end

mutual

/-- Plain JSON serialization with Python's default separators. The numeric
and string atoms use Lean's rendering; the claims only compare outputs of
this single function, so the exact atom spelling is immaterial. -/
def dumpsPlain : Json → String
  | .null => "null"
  | .bool b => if b then "true" else "false"
  | .num q => toString q
  | .str s => "\"" ++ s ++ "\""
  | .arr es => "[" ++ dumpsElems es ++ "]"
  | .obj kvs => "\x7b" ++ dumpsFields kvs ++ "\x7d"

def dumpsElems : List Json → String
  | [] => ""
  | [j] => dumpsPlain j
  | j :: js => dumpsPlain j ++ ", " ++ dumpsElems js

def dumpsFields : List (String × Json) → String
  | [] => ""
  | [(k, v)] => "\"" ++ k ++ "\": " ++ dumpsPlain v
  | (k, v) :: kvs => "\"" ++ k ++ "\": " ++ dumpsPlain v ++ ", " ++ dumpsFields kvs

end

/-- `json.dumps(j, ensure_ascii=False, sort_keys=True)`. -/
def dumps (j : Json) : String :=
  dumpsPlain (sortKeysJson j)

/-! ## Rows, registries, loader state -/

/-- One row of the `edges` table (line 286-294 of loader-improved.py). -/
structure EdgeRow where
  id : Nat
  uri : String
  relation_id : Nat
  start_id : Nat
  end_id : Nat
  weight : Json
  data : String

/-- One row of the `edges_gin` table (line 299). -/
structure GinRow where
  edge_id : Nat
  weight : Json
  data : String

/-- One row of the `edge_features` table (lines 320-337). -/
structure FeatureRow where
  rel_id : Nat
  direction : Int
  node_id : Nat
  edge_id : Nat
deriving DecidableEq

/-- The Python `OrderedDict` registries are association lists in insertion
order; `registerUri` is the `if uri not in d: d[uri] = next_id; next_id += 1`
idiom of load_assertions. -/
def registerUri (m : List (String × Nat)) (next : Nat) (u : String) :
    List (String × Nat) × Nat :=
  if (List.lookup u m).isSome then (m, next) else (m ++ [(u, next)], next + 1)

/-- Fold `registerUri` over a list of URIs (the prefix-registration and
source-registration loops). -/
def registerAll (m : List (String × Nat)) (next : Nat) (us : List String) :
    List (String × Nat) × Nat :=
  us.foldl (fun acc u => registerUri acc.1 acc.2 u) (m, next)

/-- The relation registry stores `(id, is_symmetric)` per URI
(lines 265-268). -/
def registerRel (m : List (String × Nat × Bool)) (next : Nat) (u : String) :
    List (String × Nat × Bool) × Nat :=
  if (List.lookup u m).isSome then (m, next)
  else (m ++ [(u, next, is_symmetric_relation u)], next + 1)

/-- `d[key]` on a registry whose key is known to be present (the default is
never read on the paths the program takes). -/
def lookupId (m : List (String × Nat)) (u : String) : Nat :=
  (List.lookup u m).getD 0

/-- In-memory state of `load_assertions` between input lines: the three
registries, their next-ID counters, the edge-ID counter, and the three
batch accumulators. -/
structure LoaderState where
  nodes : List (String × Nat)
  relations : List (String × Nat × Bool)
  sources : List (String × Nat)
  next_node_id : Nat
  next_relation_id : Nat
  next_source_id : Nat
  next_edge_id : Nat
  edges_batch : List EdgeRow
  edges_gin_batch : List GinRow
  edge_features_batch : List FeatureRow
  rows_processed : Nat

/-- State at the top of `load_assertions` (lines 186-200). -/
def initState : LoaderState :=
  ⟨[], [], [], 1, 1, 1, 1, [], [], [], 0⟩

/-! ## One input line -/

/-- Outcome of field 5 of a TSV line: missing or empty (`len(row) <= 4 or
not row[4]`), present but rejected by `json.loads` (JSONDecodeError), or a
parsed JSON object given as its field list. A parse producing a non-object
is not modelled: the loader would crash on `metadata.get` there, and no
claim touches that path. -/
inductive MetaField where
  | absent : MetaField
  | malformed : MetaField
  | parsed (kvs : List (String × Json)) : MetaField

/-- One line of the assertions TSV: its tab-separated fields and the JSON
outcome of field 5. -/
structure InputLine where
  fields : List String
  meta : MetaField

def InputLine.edgeUri (l : InputLine) : String := l.fields.getD 0 ""
def InputLine.relUri (l : InputLine) : String := l.fields.getD 1 ""
def InputLine.startUri (l : InputLine) : String := l.fields.getD 2 ""
def InputLine.endUri (l : InputLine) : String := l.fields.getD 3 ""

/-- The `metadata` dict after lines 222-229: empty when field 5 is absent
or malformed (the JSONDecodeError handler is `pass`). -/
def metaFields : MetaField → List (String × Json)
  | .parsed kvs => kvs
  | _ => []

/-! ## Edge assembly -/

/-- `edge_data` as built on lines 232-253, an association list in the
dict's insertion order: the five always-present fields, the four optional
metadata fields when present, then `surfaceStart`/`surfaceEnd` defaulting
to `None`. -/
def edgeDataJson (edge_uri relation_uri start_uri end_uri : String)
    (weight : Json) (kvs : List (String × Json)) : List (String × Json) :=
  [("uri", .str edge_uri), ("rel", .str relation_uri),
   ("start", .str start_uri), ("end", .str end_uri), ("weight", weight)]
  ++ (match List.lookup "dataset" kvs with
      | some v => [("dataset", v)] | none => [])
  ++ (match List.lookup "license" kvs with
      | some v => [("license", v)] | none => [])
  ++ (match List.lookup "sources" kvs with
      | some v => [("sources", v)] | none => [])
  ++ (match List.lookup "surfaceText" kvs with
      | some v => [("surfaceText", v)] | none => [])
  ++ [("surfaceStart", (List.lookup "surfaceStart" kvs).getD .null),
      ("surfaceEnd", (List.lookup "surfaceEnd" kvs).getD .null)]

/-- The string payload of a JSON value where the loader assumes a string
(a non-string here would raise in Python; no claim exercises that). -/
def jsonAsString : Json → String
  | .str s => s
  | _ => ""

/-- `for source in sources_value: for value in source.values()`: the string
provenance values of a `sources` list, in iteration order. -/
def sourceStringVals : Json → List String
  | .arr es => es.flatMap (fun e =>
      match e with
      | .obj kv => kv.map (fun p => jsonAsString p.2)
      | _ => [])
  | _ => []

/-- Insertion sort of strings (Python `sorted`). -/
def insertStr (s : String) : List String → List String
  | [] => [s]
  | t :: ts => if s ≤ t then s :: t :: ts else t :: insertStr s ts

def sortStrings (l : List String) : List String :=
  l.foldr insertStr []

/-- `gin_indexable_edge` from loader-improved.py (lines 56-79): prefix-expand
start/end/rel (and dataset when present) and flatten provenance values into
the sorted, deduplicated union of their `min_pieces=3` prefixes. Fields in
the dict's insertion order. -/
def gin_indexable_edge (edge_data : List (String × Json)) : List (String × Json) :=
  let strArr : List String → Json := fun l => .arr (l.map .str)
  [("start", strArr (uri_prefixes (jsonAsString ((List.lookup "start" edge_data).getD .null)))),
   ("end", strArr (uri_prefixes (jsonAsString ((List.lookup "end" edge_data).getD .null)))),
   ("rel", strArr (uri_prefixes (jsonAsString ((List.lookup "rel" edge_data).getD .null))))]
  ++ (match List.lookup "dataset" edge_data with
      | some v => [("dataset", strArr (uri_prefixes (jsonAsString v)))]
      | none => [])
  ++ (match List.lookup "sources" edge_data with
      | some v => [("sources", strArr (sortStrings
          (((sourceStringVals v).flatMap (fun s => uri_prefixes s 3)).dedup)))]
      | none => [])

/-- The feature rows emitted for one edge (lines 317-337): direction 0 on
both sides for a symmetric relation, +1 for start-side and -1 for end-side
prefixes of a directed relation; the node IDs are read back from the node
registry, into which every prefix was just registered. -/
def featureRowsFor (relation_id : Nat) (isSym : Bool)
    (nodesMap : List (String × Nat)) (startPfx endPfx : List String)
    (edge_id : Nat) : List FeatureRow :=
  if isSym then
    startPfx.map (fun p => ⟨relation_id, 0, lookupId nodesMap p, edge_id⟩)
      ++ endPfx.map (fun p => ⟨relation_id, 0, lookupId nodesMap p, edge_id⟩)
  else
    startPfx.map (fun p => ⟨relation_id, 1, lookupId nodesMap p, edge_id⟩)
      ++ endPfx.map (fun p => ⟨relation_id, -1, lookupId nodesMap p, edge_id⟩)

/-- The body of the `for row in reader` loop of `load_assertions`
(lines 211-340), without the batch-size flush trigger: a line with fewer
than 4 fields is skipped (`continue`), otherwise the endpoints, relation,
provenance values and endpoint prefixes are registered, and one edge row,
one GIN row and the feature rows are appended to the batches. -/
def processLine (st : LoaderState) (line : InputLine) : LoaderState :=
  if line.fields.length < 4 then st
  else
    let kvs := metaFields line.meta
    let weight := (List.lookup "weight" kvs).getD (Json.num 1)
    let edge_data := edgeDataJson line.edgeUri line.relUri line.startUri
      line.endUri weight kvs
    let ns1 := registerUri st.nodes st.next_node_id line.startUri
    let ns2 := registerUri ns1.1 ns1.2 line.endUri
    let rl1 := registerRel st.relations st.next_relation_id line.relUri
    let srcVals := sourceStringVals ((List.lookup "sources" kvs).getD .null)
    let sr1 := registerAll st.sources st.next_source_id srcVals
    let start_id := lookupId ns2.1 line.startUri
    let end_id := lookupId ns2.1 line.endUri
    let relEntry := (List.lookup line.relUri rl1.1).getD (0, false)
    let edge_json := dumps (.obj edge_data)
    let newEdge : EdgeRow :=
      ⟨st.next_edge_id, line.edgeUri, relEntry.1, start_id, end_id, weight, edge_json⟩
    let gin_json := dumps (.obj (gin_indexable_edge edge_data))
    let newGin : GinRow := ⟨st.next_edge_id, weight, gin_json⟩
    let startPfx := uri_prefixes line.startUri 3
    let endPfx := uri_prefixes line.endUri 3
    let ns3 := registerAll ns2.1 ns2.2 startPfx
    let ns4 := registerAll ns3.1 ns3.2 endPfx
    let feats := featureRowsFor relEntry.1 relEntry.2 ns4.1 startPfx endPfx
      st.next_edge_id
    { nodes := ns4.1
      relations := rl1.1
      sources := sr1.1
      next_node_id := ns4.2
      next_relation_id := rl1.2
      next_source_id := sr1.2
      next_edge_id := st.next_edge_id + 1
      edges_batch := st.edges_batch ++ [newEdge]
      edges_gin_batch := st.edges_gin_batch ++ [newGin]
      edge_features_batch := st.edge_features_batch ++ feats
      rows_processed := st.rows_processed + 1 }

/-- Streaming a list of input lines through the loop body. -/
def processLines (st : LoaderState) (ls : List InputLine) : LoaderState :=
  ls.foldl processLine st

/-! ## The flush (`insert_batches`, lines 381-449) -/

/-- One SQL statement issued by `insert_batches`, in issue order.
`insertIfAbsent` records whether the statement carries
`ON CONFLICT (uri) DO NOTHING`. -/
inductive DbWrite where
  | writeNodes (rows : List (Nat × String)) (insertIfAbsent : Bool) : DbWrite
  | writeRelations (rows : List (Nat × String × Bool)) (insertIfAbsent : Bool) : DbWrite
  | writeSources (rows : List (Nat × String)) (insertIfAbsent : Bool) : DbWrite
  | writeEdges (rows : List EdgeRow) (insertIfAbsent : Bool) : DbWrite
  | writeGin (rows : List GinRow) (insertIfAbsent : Bool) : DbWrite
  | writeFeatures (rows : List FeatureRow) (insertIfAbsent : Bool) : DbWrite
  | commit : DbWrite

/-- The statements one call to `insert_batches` issues, given the
`MAX(id)` each of the three registry tables reported: registry rows with
IDs above the stored maximum are inserted with `ON CONFLICT (uri) DO
NOTHING` (nodes, then relations, then sources), the three batch tables are
inserted with plain `INSERT` (edges, then edges_gin, then edge_features),
each statement only when its row list is non-empty, and the transaction is
committed once at the end. -/
def insert_batches (last_node_id last_rel_id last_source_id : Nat)
    (st : LoaderState) : List DbWrite :=
  (let new_nodes := (st.nodes.filter (fun p => last_node_id < p.2)).map
      (fun p => (p.2, p.1))
   if new_nodes.isEmpty then [] else [.writeNodes new_nodes true])
  ++ (let new_relations := (st.relations.filter (fun p => last_rel_id < p.2.1)).map
        (fun p => (p.2.1, p.1, p.2.2))
      if new_relations.isEmpty then [] else [.writeRelations new_relations true])
  ++ (let new_sources := (st.sources.filter (fun p => last_source_id < p.2)).map
        (fun p => (p.2, p.1))
      if new_sources.isEmpty then [] else [.writeSources new_sources true])
  ++ (if st.edges_batch.isEmpty then [] else [.writeEdges st.edges_batch false])
  ++ (if st.edges_gin_batch.isEmpty then [] else [.writeGin st.edges_gin_batch false])
  ++ (if st.edge_features_batch.isEmpty then []
      else [.writeFeatures st.edge_features_batch false])
  ++ [.commit]

/-- Semantics of one statement against the `edges` table: a plain insert
appends every row; an insert-if-absent keyed on `uri` appends only rows
whose `uri` is not yet present. -/
def applyEdgesWrite (tbl : List EdgeRow) : DbWrite → List EdgeRow
  | .writeEdges rows ifAbsent =>
      rows.foldl (fun t r =>
        if ifAbsent && t.any (fun e => e.uri == r.uri) then t else t ++ [r]) tbl
  | _ => tbl

/-- Folding a statement list over the `edges` table. -/
def applyAllEdges (tbl : List EdgeRow) (ws : List DbWrite) : List EdgeRow :=
  ws.foldl applyEdgesWrite tbl

/-! ## Association-list and registry lemmas -/

theorem lookup_mem {β : Type} {l : List (String × β)} {k : String} {v : β}
    (h : List.lookup k l = some v) : (k, v) ∈ l := by
  induction l with
  | nil => simp [List.lookup] at h
  | cons p t ih =>
    obtain ⟨a, b⟩ := p
    rw [List.lookup] at h
    by_cases hk : k = a
    · subst hk
      simp at h
      simp [h]
    · have : (k == a) = false := beq_false_of_ne hk
      rw [this] at h
      exact List.mem_cons_of_mem _ (ih h)

theorem lookup_append {β : Type} (k : String) (l1 l2 : List (String × β)) :
    List.lookup k (l1 ++ l2) = (List.lookup k l1).or (List.lookup k l2) := by
  induction l1 with
  | nil => simp
  | cons p t ih =>
    obtain ⟨a, b⟩ := p
    by_cases hk : k = a
    · subst hk; simp [List.lookup]
    · have hf : (k == a) = false := beq_false_of_ne hk
      simp [List.lookup, hf, ih]

theorem lookup_key_mem {β : Type} {l : List (String × β)} {k : String}
    (h : (List.lookup k l).isSome) : k ∈ l.map Prod.fst := by
  obtain ⟨v, hv⟩ := Option.isSome_iff_exists.mp h
  exact List.mem_map_of_mem _ (lookup_mem hv)

theorem registerUri_mem_mono {m : List (String × Nat)} {next : Nat} {u : String}
    {p : String × Nat} (h : p ∈ m) : p ∈ (registerUri m next u).1 := by
  unfold registerUri
  split
  · exact h
  · exact List.mem_append_left _ h

theorem registerUri_mem_cases {m : List (String × Nat)} {next : Nat} {u : String}
    {p : String × Nat} (h : p ∈ (registerUri m next u).1) : p ∈ m ∨ p.1 = u := by
  unfold registerUri at h
  split at h
  · exact Or.inl h
  · rcases List.mem_append.mp h with h' | h'
    · exact Or.inl h'
    · simp at h'
      exact Or.inr (by rw [h'])

theorem registerUri_lookup_preserve {m : List (String × Nat)} {next : Nat}
    {u v : String} (h : (List.lookup v m).isSome) :
    List.lookup v (registerUri m next u).1 = List.lookup v m := by
  unfold registerUri
  split
  · rfl
  · obtain ⟨w, hw⟩ := Option.isSome_iff_exists.mp h
    rw [lookup_append, hw]
    rfl

theorem registerUri_lookup_self {m : List (String × Nat)} {next : Nat} {u : String} :
    (List.lookup u (registerUri m next u).1).isSome := by
  unfold registerUri
  split
  · assumption
  · rename_i h
    have hnone : List.lookup u m = none := Option.not_isSome_iff_eq_none.mp h
    rw [lookup_append, hnone]
    simp [List.lookup]

theorem registerAll_mem_mono {us : List String} {m : List (String × Nat)} {next : Nat}
    {p : String × Nat} (h : p ∈ m) : p ∈ (registerAll m next us).1 := by
  induction us generalizing m next with
  | nil => exact h
  | cons u t ih => exact ih (registerUri_mem_mono h)

theorem registerAll_mem_cases {us : List String} {m : List (String × Nat)} {next : Nat}
    {p : String × Nat} (h : p ∈ (registerAll m next us).1) : p ∈ m ∨ p.1 ∈ us := by
  induction us generalizing m next with
  | nil => exact Or.inl h
  | cons u t ih =>
    rcases ih h with h' | h'
    · rcases registerUri_mem_cases h' with h'' | h''
      · exact Or.inl h''
      · exact Or.inr (by simp [h''])
    · exact Or.inr (List.mem_cons_of_mem _ h')

theorem registerAll_lookup_preserve {us : List String} {m : List (String × Nat)}
    {next : Nat} {v : String} (h : (List.lookup v m).isSome) :
    List.lookup v (registerAll m next us).1 = List.lookup v m := by
  induction us generalizing m next with
  | nil => rfl
  | cons u t ih =>
    have h1 := @registerUri_lookup_preserve m next u v h
    have h2 : (List.lookup v (registerUri m next u).1).isSome := by
      rw [h1]; exact h
    calc List.lookup v (registerAll m next (u :: t)).1
        = List.lookup v (registerUri m next u).1 := ih h2
      _ = List.lookup v m := h1

theorem registerAll_lookup_isSome_of_mem {us : List String} {m : List (String × Nat)}
    {next : Nat} {u : String} (h : u ∈ us) :
    (List.lookup u (registerAll m next us).1).isSome := by
  induction us generalizing m next with
  | nil => cases h
  | cons w t ih =>
    rcases List.mem_cons.mp h with h' | h'
    · subst h'
      have h1 : (List.lookup u (registerUri m next u).1).isSome :=
        registerUri_lookup_self
      rw [show (registerAll m next (u :: t)).1
            = (registerAll (registerUri m next u).1 (registerUri m next u).2 t).1
          from rfl]
      rw [registerAll_lookup_preserve h1]
      exact h1
    · exact ih h'

theorem registerRel_mem_mono {m : List (String × Nat × Bool)} {next : Nat} {u : String}
    {p : String × Nat × Bool} (h : p ∈ m) : p ∈ (registerRel m next u).1 := by
  unfold registerRel
  split
  · exact h
  · exact List.mem_append_left _ h

theorem registerRel_lookup_entry {m : List (String × Nat × Bool)} {next : Nat}
    {u : String} (hinv : ∀ p ∈ m, p.2.2 = is_symmetric_relation p.1) :
    ∃ i, List.lookup u (registerRel m next u).1 = some (i, is_symmetric_relation u) := by
  unfold registerRel
  split
  · rename_i h
    obtain ⟨⟨i, b⟩, hv⟩ := Option.isSome_iff_exists.mp h
    have hmem := lookup_mem hv
    have hb := hinv _ hmem
    simp at hb
    exact ⟨i, by rw [hv, hb]⟩
  · rename_i h
    have hnone : List.lookup u m = none := Option.not_isSome_iff_eq_none.mp h
    rw [lookup_append, hnone]
    exact ⟨next, by simp [List.lookup]⟩

/-! ## Split/join lemmas for `uri_prefixes` -/

theorem splitChar_ne_nil (sep : Char) (cs : List Char) : splitChar sep cs ≠ [] := by
  cases cs with
  | nil => simp [splitChar]
  | cons c cs =>
    unfold splitChar
    split
    · simp
    · split <;> simp

theorem intercalate_cons_cons (sep c : Char) (p : List Char) (ps : List (List Char)) :
    List.intercalate [sep] ((c :: p) :: ps) = c :: List.intercalate [sep] (p :: ps) := by
  cases ps <;> simp [List.intercalate]

theorem intercalate_nil_cons (sep : Char) (p : List Char) (ps : List (List Char)) :
    List.intercalate [sep] ([] :: p :: ps) = sep :: List.intercalate [sep] (p :: ps) := by
  simp [List.intercalate]

theorem intercalate_splitChar (sep : Char) (cs : List Char) :
    List.intercalate [sep] (splitChar sep cs) = cs := by
  induction cs with
  | nil => simp [splitChar, List.intercalate]
  | cons c cs ih =>
    unfold splitChar
    by_cases hc : c = sep
    · rw [if_pos hc]
      obtain ⟨p, ps, hps⟩ : ∃ p ps, splitChar sep cs = p :: ps := by
        cases h : splitChar sep cs with
        | nil => exact absurd h (splitChar_ne_nil sep cs)
        | cons p ps => exact ⟨p, ps, rfl⟩
      rw [hps, intercalate_nil_cons, ← hps, ih, hc]
    · rw [if_neg hc]
      obtain ⟨p, ps, hps⟩ : ∃ p ps, splitChar sep cs = p :: ps := by
        cases h : splitChar sep cs with
        | nil => exact absurd h (splitChar_ne_nil sep cs)
        | cons p ps => exact ⟨p, ps, rfl⟩
      rw [hps, intercalate_cons_cons, ← hps, ih]

theorem joinSlash_uriPieces (u : String) : joinSlash (uriPieces u) = u := by
  unfold joinSlash uriPieces
  rw [List.map_map]
  have hmap : (uriPieces u).length = (splitChar '/' u.toList).length := by
    unfold uriPieces; rw [List.length_map]
  have : (splitChar '/' u.toList).map (String.toList ∘ (fun cs => String.mk cs))
      = splitChar '/' u.toList := by
    apply List.map_id''
    intro l
    rfl
  rw [this, intercalate_splitChar]
  cases u
  rfl

theorem intercalate_two (sep : Char) (x y : List Char) (zs : List (List Char)) :
    List.intercalate [sep] (x :: y :: zs)
      = x ++ sep :: List.intercalate [sep] (y :: zs) := by
  simp [List.intercalate]

theorem joinSlash_two_le_ne_empty {l : List String} (h : 2 ≤ l.length) :
    joinSlash l ≠ "" := by
  match l, h with
  | a :: b :: t, _ =>
    unfold joinSlash
    rw [List.map_cons, List.map_cons, intercalate_two]
    intro hcontra
    have h' := congrArg String.toList hcontra
    simp at h'

theorem uri_prefixes_eq_map {u : String} (hw : startsWithWebScheme u = false)
    {mp : Nat} (hmp : 2 ≤ mp) :
    uri_prefixes u mp = (List.range' mp ((uriPieces u).length + 1 - mp)).map
      (fun i => joinSlash ((uriPieces u).take i)) := by
  unfold uri_prefixes
  rw [if_neg (by simp [hw])]
  rw [List.filterMap_eq_map_iff_forall_eq_some.mpr]
  intro i hi
  rw [List.mem_range'_1] at hi
  have hi2 : 2 ≤ i := le_trans hmp hi.1
  have hin : i ≤ (uriPieces u).length := by omega
  have hlen : ((uriPieces u).take i).length = i := by
    simp
    omega
  rw [if_neg (joinSlash_two_le_ne_empty (by omega))]

theorem intercalate_length (sep : Char) :
    ∀ ps : List (List Char), ps ≠ [] →
      (List.intercalate [sep] ps).length + 1 = (ps.map List.length).sum + ps.length
  | [p], _ => by simp [List.intercalate]
  | p :: q :: t, _ => by
    have ih := intercalate_length sep (q :: t) (by simp)
    rw [intercalate_two]
    simp only [List.length_append, List.length_cons, List.map_cons, List.sum_cons,
      List.length_cons] at *
    omega

theorem joinSlash_length {l : List String} (h : l ≠ []) :
    (joinSlash l).length + 1 = (l.map String.length).sum + l.length := by
  unfold joinSlash
  have hlen := intercalate_length '/' (l.map String.toList) (by simp [h])
  have hmk : ∀ cs : List Char, (String.mk cs).length = cs.length := fun _ => rfl
  rw [hmk]
  rw [List.map_map] at hlen
  have : (l.map (List.length ∘ String.toList)) = l.map String.length := by
    apply List.map_congr_left
    intro a _
    rfl
  rw [this] at hlen
  simpa using hlen

theorem sum_take_le (l : List Nat) {i j : Nat} (hij : i ≤ j) :
    (l.take i).sum ≤ (l.take j).sum := by
  have : l.take j = l.take i ++ (l.drop i).take (j - i) := by
    rw [← List.take_add]
    congr 1
    omega
  rw [this, List.sum_append]
  omega

theorem joinSlash_take_lt {l : List String} {i j : Nat} (h2 : 2 ≤ i) (hij : i < j)
    (hj : j ≤ l.length) :
    (joinSlash (l.take i)).length < (joinSlash (l.take j)).length := by
  have hi : (l.take i).length = i := by simp; omega
  have hjl : (l.take j).length = j := by simp; omega
  have hne1 : l.take i ≠ [] := by
    intro hc; rw [hc] at hi; simp at hi; omega
  have hne2 : l.take j ≠ [] := by
    intro hc; rw [hc] at hjl; simp at hjl; omega
  have e1 := joinSlash_length hne1
  have e2 := joinSlash_length hne2
  have hsum : ((l.take i).map String.length).sum ≤ ((l.take j).map String.length).sum := by
    rw [List.map_take, List.map_take]
    exact sum_take_le _ (le_of_lt hij)
  omega

theorem uri_prefixes_nil_of_short {u : String} (hw : startsWithWebScheme u = false)
    (h : (uriPieces u).length < 3) : uri_prefixes u 3 = [] := by
  unfold uri_prefixes
  rw [if_neg (by simp [hw])]
  have h0 : (uriPieces u).length + 1 - 3 = 0 := by omega
  simp only [h0, List.range'_zero, List.filterMap_nil]

/-- C4 (amended): for every URI with at least 2 slash-split pieces,
`uri_prefixes u 2` is non-empty, ends in `u` itself, has strictly
increasing element lengths, and every element is a slash-delimited leading
piece sequence of `u` with at least 2 pieces; re-expanding the last element
returns the whole original sequence (not, as the claim put it, only the
last element itself). -/
theorem uri_prefixes_min2_spec (u : String) (h2 : 2 ≤ (uriPieces u).length) :
    uri_prefixes u 2 ≠ []
    ∧ (uri_prefixes u 2).getLast? = some u
    ∧ (uri_prefixes u 2).Pairwise (fun a b => a.length < b.length)
    ∧ (∀ p ∈ uri_prefixes u 2, ∃ j, 2 ≤ j ∧ j ≤ (uriPieces u).length ∧
        p = joinSlash ((uriPieces u).take j))
    ∧ uri_prefixes ((uri_prefixes u 2).getLast?.getD "") 2 = uri_prefixes u 2 := by
  by_cases hw : startsWithWebScheme u = true
  · have he : uri_prefixes u 2 = [u] := by
      unfold uri_prefixes
      rw [if_pos hw]
    refine ⟨by simp [he], by simp [he], by simp [he], ?_, ?_⟩
    · intro p hp
      rw [he] at hp
      simp at hp
      subst hp
      exact ⟨(uriPieces p).length, h2, le_refl _,
        by rw [List.take_length, joinSlash_uriPieces]⟩
    · rw [he]
      simp
      rw [he]
  · have hw' : startsWithWebScheme u = false := by simpa using hw
    have hmapf := uri_prefixes_eq_map hw' (le_refl 2)
    have hlast : (uri_prefixes u 2).getLast? = some u := by
      rw [hmapf]
      have hn : (uriPieces u).length + 1 - 2 = ((uriPieces u).length - 2) + 1 := by
        omega
      rw [hn, List.range'_1_concat, List.map_append, List.map_cons, List.map_nil,
        List.getLast?_concat]
      have hlen : 2 + ((uriPieces u).length - 2) = (uriPieces u).length := by omega
      rw [hlen, List.take_length, joinSlash_uriPieces]
    refine ⟨?_, hlast, ?_, ?_, ?_⟩
    · rw [hmapf]
      simp [List.range'_eq_nil]
      omega
    · rw [hmapf, List.pairwise_map]
      refine List.Pairwise.imp_of_mem ?_ (List.pairwise_lt_range' 2 _)
      intro a b ha hb hab
      rw [List.mem_range'_1] at ha hb
      exact joinSlash_take_lt (by omega) hab (by omega)
    · intro p hp
      rw [hmapf] at hp
      obtain ⟨i, hi, rfl⟩ := List.mem_map.mp hp
      rw [List.mem_range'_1] at hi
      exact ⟨i, by omega, by omega, rfl⟩
    · rw [hlast]
      simp

/-- C4 counterexample: the expansion of `/c/en` ends in `/c/en`, but
re-expanding `/c/en` yields the two-element sequence again, not only the
element itself — the claimed idempotency fails. -/
theorem uri_prefixes_idempotence_cex :
    (uri_prefixes "/c/en" 2).getLast? = some "/c/en"
    ∧ uri_prefixes "/c/en" 2 ≠ ["/c/en"] := by
  decide

/-- C4 witness. -/
theorem uri_prefixes_min2_spec_witness :
    2 ≤ (uriPieces "/c/en/dog").length
    ∧ (uri_prefixes "/c/en/dog" 2 ≠ []
      ∧ (uri_prefixes "/c/en/dog" 2).getLast? = some "/c/en/dog"
      ∧ (uri_prefixes "/c/en/dog" 2).Pairwise (fun a b => a.length < b.length)
      ∧ (∀ p ∈ uri_prefixes "/c/en/dog" 2, ∃ j, 2 ≤ j
          ∧ j ≤ (uriPieces "/c/en/dog").length
          ∧ p = joinSlash ((uriPieces "/c/en/dog").take j))
      ∧ uri_prefixes ((uri_prefixes "/c/en/dog" 2).getLast?.getD "") 2
          = uri_prefixes "/c/en/dog" 2) :=
  ⟨by decide, uri_prefixes_min2_spec "/c/en/dog" (by decide)⟩

/-- C10: a non-web endpoint URI with fewer than 3 slash-split pieces has an
empty `min_pieces=3` expansion, so an edge with such a start endpoint
appends only end-side feature rows (possibly none) and registers no prefix
node for the start side. -/
theorem short_endpoint_no_feature_rows (st : LoaderState) (line : InputLine)
    (h4 : 4 ≤ line.fields.length)
    (hw : startsWithWebScheme line.startUri = false)
    (hshort : (uriPieces line.startUri).length < 3) :
    uri_prefixes line.startUri 3 = []
    ∧ (∃ eRows, (processLine st line).edge_features_batch
          = st.edge_features_batch ++ eRows
        ∧ eRows.length = (uri_prefixes line.endUri 3).length)
    ∧ (∀ p ∈ (processLine st line).nodes,
        p ∈ st.nodes ∨ p.1 = line.startUri ∨ p.1 = line.endUri
          ∨ p.1 ∈ uri_prefixes line.endUri 3) := by
  have hnil := uri_prefixes_nil_of_short hw hshort
  have hn4 : ¬ line.fields.length < 4 := by omega
  refine ⟨hnil, ?_, ?_⟩
  · simp only [processLine, if_neg hn4, hnil]
    refine ⟨_, rfl, ?_⟩
    unfold featureRowsFor
    split <;> simp
  · intro p hp
    simp only [processLine, if_neg hn4, hnil] at hp
    have hp1 : p ∈ (registerAll (registerUri (registerUri st.nodes st.next_node_id
        line.startUri).1 (registerUri st.nodes st.next_node_id line.startUri).2
        line.endUri).1 (registerAll (registerUri (registerUri st.nodes
        st.next_node_id line.startUri).1 (registerUri st.nodes st.next_node_id
        line.startUri).2 line.endUri).1 (registerUri (registerUri st.nodes
        st.next_node_id line.startUri).1 (registerUri st.nodes st.next_node_id
        line.startUri).2 line.endUri).2 []).2 (uri_prefixes line.endUri 3)).1 := by
      simpa [registerAll] using hp
    rcases registerAll_mem_cases hp1 with h1 | h1
    · rcases registerUri_mem_cases h1 with h2 | h2
      · rcases registerUri_mem_cases h2 with h3 | h3
        · exact Or.inl h3
        · exact Or.inr (Or.inl h3)
      · exact Or.inr (Or.inr (Or.inl h2))
    · exact Or.inr (Or.inr (Or.inr h1))

/-- C10 witness: start endpoint `/c` (2 slash-split pieces) yields no
start-side feature rows and no start-side prefix nodes. -/
theorem short_endpoint_no_feature_rows_witness :
    4 ≤ (InputLine.mk ["/a/x", "/r/IsA", "/c", "/c/en/b"]
        MetaField.absent).fields.length
    ∧ startsWithWebScheme (InputLine.mk ["/a/x", "/r/IsA", "/c", "/c/en/b"]
        MetaField.absent).startUri = false
    ∧ (uriPieces (InputLine.mk ["/a/x", "/r/IsA", "/c", "/c/en/b"]
        MetaField.absent).startUri).length < 3
    ∧ (uri_prefixes (InputLine.mk ["/a/x", "/r/IsA", "/c", "/c/en/b"]
          MetaField.absent).startUri 3 = []
      ∧ (∃ eRows, (processLine initState (InputLine.mk
            ["/a/x", "/r/IsA", "/c", "/c/en/b"]
            MetaField.absent)).edge_features_batch
            = initState.edge_features_batch ++ eRows
          ∧ eRows.length = (uri_prefixes (InputLine.mk
              ["/a/x", "/r/IsA", "/c", "/c/en/b"]
              MetaField.absent).endUri 3).length)
      ∧ (∀ p ∈ (processLine initState (InputLine.mk
            ["/a/x", "/r/IsA", "/c", "/c/en/b"] MetaField.absent)).nodes,
          p ∈ initState.nodes
            ∨ p.1 = (InputLine.mk ["/a/x", "/r/IsA", "/c", "/c/en/b"]
                MetaField.absent).startUri
            ∨ p.1 = (InputLine.mk ["/a/x", "/r/IsA", "/c", "/c/en/b"]
                MetaField.absent).endUri
            ∨ p.1 ∈ uri_prefixes (InputLine.mk
                ["/a/x", "/r/IsA", "/c", "/c/en/b"]
                MetaField.absent).endUri 3)) :=
  ⟨by decide, by decide, by decide,
   short_endpoint_no_feature_rows initState
     (InputLine.mk ["/a/x", "/r/IsA", "/c", "/c/en/b"] MetaField.absent)
     (by decide) (by decide) (by decide)⟩

/-! ## C2: malformed input lines -/

/-- C2 counterexample: a 4-field line whose field 5 fails JSON parsing is
NOT skipped — the loop body still appends an edge row for it and counts it
as processed. -/
theorem malformed_json_line_not_skipped_cex :
    (processLine initState
        ⟨["/a/x", "/r/IsA", "/c/en/a", "/c/en/b"], .malformed⟩).edges_batch.length = 1
    ∧ (processLine initState
        ⟨["/a/x", "/r/IsA", "/c/en/a", "/c/en/b"], .malformed⟩).rows_processed = 1 := by
  decide

/-- C2 (amended): a line with fewer than 4 fields is skipped with the
state unchanged (nothing counts it); a line whose field 5 fails JSON
parsing is not skipped but processed exactly as if the metadata were empty
(so weight defaults to 1.0); in both cases processing continues with the
remaining lines. -/
theorem malformed_line_handling (st : LoaderState) (line : InputLine)
    (rest : List InputLine) :
    (line.fields.length < 4 → processLine st line = st)
    ∧ (line.meta = .malformed →
        processLine st line = processLine st ⟨line.fields, .parsed []⟩)
    ∧ processLines st (line :: rest) = processLines (processLine st line) rest := by
  refine ⟨fun h => by simp [processLine, h], fun h => ?_, rfl⟩
  obtain ⟨fields, meta⟩ := line
  simp at h
  subst h
  rfl

/-- C2 witness. -/
theorem malformed_line_handling_witness :
    processLine initState ⟨["/a/x"], .malformed⟩ = initState
    ∧ processLine initState ⟨["/a/x"], .malformed⟩
        = processLine initState ⟨["/a/x"], .parsed []⟩
    ∧ processLines initState [⟨["/a/x"], .malformed⟩]
        = processLines (processLine initState ⟨["/a/x"], .malformed⟩) [] :=
  ⟨(malformed_line_handling initState ⟨["/a/x"], .malformed⟩ []).1 (by decide),
   (malformed_line_handling initState ⟨["/a/x"], .malformed⟩ []).2.1 rfl,
   (malformed_line_handling initState ⟨["/a/x"], .malformed⟩ []).2.2⟩

/-! ## C3: provenance in registry vs. search document -/

/-- C3 counterexample: after one assertion whose only provenance value is
`/s/contributor/omcs/x`, the source registry holds exactly that raw value,
not its three `min_pieces=3` prefixes — `/s/contributor` is absent. -/
theorem provenance_registry_raw_cex :
    (processLine initState
        ⟨["/a/x", "/r/IsA", "/c/en/a", "/c/en/b"],
         .parsed [("sources",
            .arr [.obj [("contributor", .str "/s/contributor/omcs/x")]])]⟩).sources
      = [("/s/contributor/omcs/x", 1)]
    ∧ uri_prefixes "/s/contributor/omcs/x" 3
      = ["/s/contributor", "/s/contributor/omcs", "/s/contributor/omcs/x"]
    ∧ "/s/contributor" ∉ ((processLine initState
        ⟨["/a/x", "/r/IsA", "/c/en/a", "/c/en/b"],
         .parsed [("sources",
            .arr [.obj [("contributor", .str "/s/contributor/omcs/x")]])]⟩).sources.map
        Prod.fst) := by
  decide

theorem lookup_sources_edgeDataJson (e r s en : String) (w : Json)
    (kvs : List (String × Json)) :
    List.lookup "sources" (edgeDataJson e r s en w kvs)
      = List.lookup "sources" kvs := by
  unfold edgeDataJson
  rw [lookup_append, lookup_append, lookup_append, lookup_append, lookup_append]
  have h5 : List.lookup "sources"
      [("uri", Json.str e), ("rel", Json.str r), ("start", Json.str s),
       ("end", Json.str en), ("weight", w)] = none := by
    simp [List.lookup]
  rw [h5]
  cases hd : List.lookup "dataset" kvs <;>
    cases hl : List.lookup "license" kvs <;>
      cases hs : List.lookup "sources" kvs <;>
        cases ht : List.lookup "surfaceText" kvs <;>
          simp [List.lookup, hs]

theorem lookup_sources_gin (edge_data : List (String × Json)) {v : Json}
    (h : List.lookup "sources" edge_data = some v) :
    List.lookup "sources" (gin_indexable_edge edge_data)
      = some (.arr ((sortStrings (((sourceStringVals v).flatMap
          (fun s => uri_prefixes s 3)).dedup)).map .str)) := by
  unfold gin_indexable_edge
  rw [lookup_append, lookup_append, h]
  have h3 : List.lookup "sources"
      [("start", Json.arr ((uri_prefixes (jsonAsString ((List.lookup "start"
          edge_data).getD Json.null))).map Json.str)),
       ("end", Json.arr ((uri_prefixes (jsonAsString ((List.lookup "end"
          edge_data).getD Json.null))).map Json.str)),
       ("rel", Json.arr ((uri_prefixes (jsonAsString ((List.lookup "rel"
          edge_data).getD Json.null))).map Json.str))] = none := by
    simp [List.lookup]
  rw [h3]
  cases hd : List.lookup "dataset" edge_data <;> simp [List.lookup]

/-- C3 (amended): provenance values enter the source registry raw — every
provenance value of the line becomes a registry key and every new registry
key is such a raw value — while the `min_pieces=3` prefix expansion of
provenance appears (deduplicated and sorted) only in the GIN search
document. -/
theorem provenance_raw_in_registry (st : LoaderState) (line : InputLine)
    (h4 : 4 ≤ line.fields.length) :
    (∀ v ∈ sourceStringVals ((List.lookup "sources"
          (metaFields line.meta)).getD .null),
        v ∈ (processLine st line).sources.map Prod.fst)
    ∧ (∀ p ∈ (processLine st line).sources,
        p ∈ st.sources
          ∨ p.1 ∈ sourceStringVals ((List.lookup "sources"
              (metaFields line.meta)).getD .null))
    ∧ (∀ v, List.lookup "sources" (metaFields line.meta) = some v →
        List.lookup "sources" (gin_indexable_edge (edgeDataJson line.edgeUri
            line.relUri line.startUri line.endUri
            ((List.lookup "weight" (metaFields line.meta)).getD (Json.num 1))
            (metaFields line.meta)))
          = some (.arr ((sortStrings (((sourceStringVals v).flatMap
              (fun s => uri_prefixes s 3)).dedup)).map .str))) := by
  have hn4 : ¬ line.fields.length < 4 := by omega
  have hsrc : (processLine st line).sources
      = (registerAll st.sources st.next_source_id
          (sourceStringVals ((List.lookup "sources"
            (metaFields line.meta)).getD .null))).1 := by
    simp only [processLine, if_neg hn4]
  refine ⟨?_, ?_, ?_⟩
  · intro v hv
    rw [hsrc]
    exact lookup_key_mem (registerAll_lookup_isSome_of_mem hv)
  · intro p hp
    rw [hsrc] at hp
    exact registerAll_mem_cases hp
  · intro v hv
    exact lookup_sources_gin _ (by rw [lookup_sources_edgeDataJson, hv])

/-- C3 witness. -/
theorem provenance_raw_in_registry_witness :
    4 ≤ (InputLine.mk ["/a/x", "/r/IsA", "/c/en/a", "/c/en/b"]
        (.parsed [("sources",
          .arr [.obj [("contributor", .str "/s/contributor/omcs/x")]])])).fields.length
    ∧ ((∀ v ∈ sourceStringVals ((List.lookup "sources"
          (metaFields (InputLine.mk ["/a/x", "/r/IsA", "/c/en/a", "/c/en/b"]
            (.parsed [("sources",
              .arr [.obj [("contributor",
                .str "/s/contributor/omcs/x")]])])).meta)).getD .null),
        v ∈ (processLine initState
            (InputLine.mk ["/a/x", "/r/IsA", "/c/en/a", "/c/en/b"]
              (.parsed [("sources",
                .arr [.obj [("contributor",
                  .str "/s/contributor/omcs/x")]])]))).sources.map Prod.fst)
      ∧ (∀ p ∈ (processLine initState
            (InputLine.mk ["/a/x", "/r/IsA", "/c/en/a", "/c/en/b"]
              (.parsed [("sources",
                .arr [.obj [("contributor",
                  .str "/s/contributor/omcs/x")]])]))).sources,
          p ∈ initState.sources
            ∨ p.1 ∈ sourceStringVals ((List.lookup "sources"
                (metaFields (InputLine.mk ["/a/x", "/r/IsA", "/c/en/a", "/c/en/b"]
                  (.parsed [("sources",
                    .arr [.obj [("contributor",
                      .str "/s/contributor/omcs/x")]])])).meta)).getD .null))
      ∧ (∀ v, List.lookup "sources"
            (metaFields (InputLine.mk ["/a/x", "/r/IsA", "/c/en/a", "/c/en/b"]
              (.parsed [("sources",
                .arr [.obj [("contributor",
                  .str "/s/contributor/omcs/x")]])])).meta) = some v →
          List.lookup "sources" (gin_indexable_edge (edgeDataJson
              (InputLine.mk ["/a/x", "/r/IsA", "/c/en/a", "/c/en/b"]
                (.parsed [("sources",
                  .arr [.obj [("contributor",
                    .str "/s/contributor/omcs/x")]])])).edgeUri
              (InputLine.mk ["/a/x", "/r/IsA", "/c/en/a", "/c/en/b"]
                (.parsed [("sources",
                  .arr [.obj [("contributor",
                    .str "/s/contributor/omcs/x")]])])).relUri
              (InputLine.mk ["/a/x", "/r/IsA", "/c/en/a", "/c/en/b"]
                (.parsed [("sources",
                  .arr [.obj [("contributor",
                    .str "/s/contributor/omcs/x")]])])).startUri
              (InputLine.mk ["/a/x", "/r/IsA", "/c/en/a", "/c/en/b"]
                (.parsed [("sources",
                  .arr [.obj [("contributor",
                    .str "/s/contributor/omcs/x")]])])).endUri
              ((List.lookup "weight"
                (metaFields (InputLine.mk ["/a/x", "/r/IsA", "/c/en/a", "/c/en/b"]
                  (.parsed [("sources",
                    .arr [.obj [("contributor",
                      .str "/s/contributor/omcs/x")]])])).meta)).getD (Json.num 1))
              (metaFields (InputLine.mk ["/a/x", "/r/IsA", "/c/en/a", "/c/en/b"]
                (.parsed [("sources",
                  .arr [.obj [("contributor",
                    .str "/s/contributor/omcs/x")]])])).meta)))
            = some (.arr ((sortStrings (((sourceStringVals v).flatMap
                (fun s => uri_prefixes s 3)).dedup)).map .str)))) :=
  ⟨by decide,
   provenance_raw_in_registry initState
     (InputLine.mk ["/a/x", "/r/IsA", "/c/en/a", "/c/en/b"]
       (.parsed [("sources",
         .arr [.obj [("contributor", .str "/s/contributor/omcs/x")]])]))
     (by decide)⟩

/-! ## C5: feature-row directions -/

/-- The relation registry stores the `is_symmetric_relation` verdict taken
at first sighting (line 266); this invariant holds for every state the
loader reaches. -/
def RelInvariant (st : LoaderState) : Prop :=
  ∀ p ∈ st.relations, p.2.2 = is_symmetric_relation p.1

/-- C5: for a processed line, the appended feature rows split into
start-side rows and end-side rows (one per `min_pieces=3` prefix); all
have direction 0 when the relation is in the fixed symmetric set, and
start-side rows have direction +1 and end-side rows -1 otherwise. -/
theorem feature_direction_spec (st : LoaderState) (line : InputLine)
    (h4 : 4 ≤ line.fields.length) (hrel : RelInvariant st) :
    ∃ sRows eRows,
      (processLine st line).edge_features_batch
        = st.edge_features_batch ++ (sRows ++ eRows)
      ∧ sRows.length = (uri_prefixes line.startUri 3).length
      ∧ eRows.length = (uri_prefixes line.endUri 3).length
      ∧ (∀ f ∈ sRows, f.direction
          = if is_symmetric_relation line.relUri then 0 else 1)
      ∧ (∀ f ∈ eRows, f.direction
          = if is_symmetric_relation line.relUri then 0 else -1) := by
  have hn4 : ¬ line.fields.length < 4 := by omega
  obtain ⟨i, hi⟩ := @registerRel_lookup_entry st.relations st.next_relation_id
    line.relUri hrel
  simp only [processLine, if_neg hn4, hi, Option.getD_some]
  unfold featureRowsFor
  by_cases hsym : is_symmetric_relation line.relUri = true
  · rw [if_pos hsym]
    refine ⟨_, _, rfl, by simp, by simp, ?_, ?_⟩
    · intro f hf
      obtain ⟨p, _, rfl⟩ := List.mem_map.mp hf
      simp [hsym]
    · intro f hf
      obtain ⟨p, _, rfl⟩ := List.mem_map.mp hf
      simp [hsym]
  · rw [if_neg hsym]
    rw [Bool.not_eq_true] at hsym
    refine ⟨_, _, rfl, by simp, by simp, ?_, ?_⟩
    · intro f hf
      obtain ⟨p, _, rfl⟩ := List.mem_map.mp hf
      simp [hsym]
    · intro f hf
      obtain ⟨p, _, rfl⟩ := List.mem_map.mp hf
      simp [hsym]

/-- C5 witness. -/
theorem feature_direction_spec_witness :
    4 ≤ (InputLine.mk ["/a/x", "/r/IsA", "/c/en/dog", "/c/en/animal"]
          MetaField.absent).fields.length
    ∧ RelInvariant initState
    ∧ (∃ sRows eRows,
        (processLine initState (InputLine.mk
            ["/a/x", "/r/IsA", "/c/en/dog", "/c/en/animal"]
            MetaField.absent)).edge_features_batch
          = initState.edge_features_batch ++ (sRows ++ eRows)
        ∧ sRows.length = (uri_prefixes (InputLine.mk
            ["/a/x", "/r/IsA", "/c/en/dog", "/c/en/animal"]
            MetaField.absent).startUri 3).length
        ∧ eRows.length = (uri_prefixes (InputLine.mk
            ["/a/x", "/r/IsA", "/c/en/dog", "/c/en/animal"]
            MetaField.absent).endUri 3).length
        ∧ (∀ f ∈ sRows, f.direction
            = if is_symmetric_relation (InputLine.mk
                ["/a/x", "/r/IsA", "/c/en/dog", "/c/en/animal"]
                MetaField.absent).relUri then 0 else 1)
        ∧ (∀ f ∈ eRows, f.direction
            = if is_symmetric_relation (InputLine.mk
                ["/a/x", "/r/IsA", "/c/en/dog", "/c/en/animal"]
                MetaField.absent).relUri then 0 else -1)) :=
  ⟨by decide, fun p hp => absurd hp (List.not_mem_nil p),
   feature_direction_spec initState _ (by decide)
     (fun p hp => absurd hp (List.not_mem_nil p))⟩

/-! ## C8: identity-registry resolve discipline -/

/-- `resolve`: the get-or-create idiom the loader uses on its registries
(`if uri not in d: d[uri] = next_id; next_id += 1` followed by `d[uri]`),
returning the updated registry, the updated counter, and the looked-up ID. -/
def resolve (m : List (String × Nat)) (next : Nat) (u : String) :
    (List (String × Nat) × Nat) × Nat :=
  (((registerUri m next u).1, (registerUri m next u).2),
    lookupId (registerUri m next u).1 u)

/-- Same idiom for the relation registry, whose entries carry the
symmetry flag (lines 265-268 and 281). -/
def relResolve (m : List (String × Nat × Bool)) (next : Nat) (u : String) :
    (List (String × Nat × Bool) × Nat) × (Nat × Bool) :=
  (((registerRel m next u).1, (registerRel m next u).2),
    (List.lookup u (registerRel m next u).1).getD (0, false))

/-- Well-formedness of a registry as the loader maintains it: keys are
distinct and the IDs, in insertion order, are exactly `1, 2, …, length`,
with the counter one past the largest ID. -/
def RegistryInv (m : List (String × Nat)) (next : Nat) : Prop :=
  (m.map Prod.fst).Nodup ∧ m.map Prod.snd = List.range' 1 m.length
    ∧ next = m.length + 1

/-- The same well-formedness for the relation registry. -/
def RelRegistryInv (m : List (String × Nat × Bool)) (next : Nat) : Prop :=
  (m.map Prod.fst).Nodup ∧ m.map (fun p => p.2.1) = List.range' 1 m.length
    ∧ next = m.length + 1

theorem mem_key_lookup_isSome {β : Type} {l : List (String × β)} {k : String}
    (h : k ∈ l.map Prod.fst) : (List.lookup k l).isSome := by
  induction l with
  | nil => simp at h
  | cons p t ih =>
    obtain ⟨a, b⟩ := p
    rcases List.mem_cons.mp h with h' | h'
    · simp at h'
      subst h'
      simp [List.lookup]
    · by_cases hk : k = a
      · subst hk
        simp [List.lookup]
      · have hf : (k == a) = false := beq_false_of_ne hk
        simp only [List.lookup, hf]
        exact ih h'

theorem lookup_none_key_not_mem {β : Type} {l : List (String × β)} {k : String}
    (h : List.lookup k l = none) : k ∉ l.map Prod.fst := by
  intro hmem
  have := mem_key_lookup_isSome hmem
  rw [h] at this
  simp at this

theorem registry_ids_inj {m : List (String × Nat)}
    (hm : m.map Prod.snd = List.range' 1 m.length) :
    ∀ p ∈ m, ∀ q ∈ m, p.1 ≠ q.1 → p.2 ≠ q.2 := by
  intro p hp q hq hne heq
  have hnd : (m.map Prod.snd).Nodup := by
    rw [hm]; exact List.nodup_range' _ _
  exact hne (congrArg Prod.fst (List.inj_on_of_nodup_map hnd hp hq heq))

theorem rel_registry_ids_inj {m : List (String × Nat × Bool)}
    (hm : m.map (fun p => p.2.1) = List.range' 1 m.length) :
    ∀ p ∈ m, ∀ q ∈ m, p.1 ≠ q.1 → p.2.1 ≠ q.2.1 := by
  intro p hp q hq hne heq
  have hnd : (m.map (fun p => p.2.1)).Nodup := by
    rw [hm]; exact List.nodup_range' _ _
  exact hne (congrArg Prod.fst (List.inj_on_of_nodup_map hnd hp hq heq))

theorem resolve_of_lookup_some {m : List (String × Nat)} {next : Nat} {u : String}
    {i : Nat} (h : List.lookup u m = some i) :
    resolve m next u = ((m, next), i) := by
  unfold resolve registerUri lookupId
  simp [h]

theorem resolve_of_lookup_none {m : List (String × Nat)} {next : Nat} {u : String}
    (h : List.lookup u m = none) :
    resolve m next u = ((m ++ [(u, next)], next + 1), next) := by
  unfold resolve registerUri lookupId
  simp [h, lookup_append, List.lookup]

theorem relResolve_of_lookup_some {m : List (String × Nat × Bool)} {next : Nat}
    {u : String} {e : Nat × Bool} (h : List.lookup u m = some e) :
    relResolve m next u = ((m, next), e) := by
  unfold relResolve registerRel
  simp [h]

theorem relResolve_of_lookup_none {m : List (String × Nat × Bool)} {next : Nat}
    {u : String} (h : List.lookup u m = none) :
    relResolve m next u
      = ((m ++ [(u, next, is_symmetric_relation u)], next + 1),
          (next, is_symmetric_relation u)) := by
  unfold relResolve registerRel
  simp [h, lookup_append, List.lookup]

/-- C8: registry `resolve` is a pure function of sighting order — resolving
a URI a second time returns the same ID and leaves the registry unchanged;
two distinct URIs never share an ID; the N-th never-seen URI is allocated
ID `1 + N - 1` (the counter starts at 1, so a fresh URI over a registry of
`len` entries gets `len + 1`); and well-formedness is preserved. Stated for
the node/source registries (`resolve`) and the relation registry
(`relResolve`), which use the same idiom. -/
theorem registry_resolve_spec (m : List (String × Nat)) (next : Nat) (u : String)
    (hinv : RegistryInv m next)
    (rm : List (String × Nat × Bool)) (rnext : Nat) (ru : String)
    (hrinv : RelRegistryInv rm rnext) :
    (resolve (resolve m next u).1.1 (resolve m next u).1.2 u = resolve m next u
      ∧ (∀ p ∈ (resolve m next u).1.1, ∀ q ∈ (resolve m next u).1.1,
          p.1 ≠ q.1 → p.2 ≠ q.2)
      ∧ (List.lookup u m = none → (resolve m next u).2 = m.length + 1)
      ∧ RegistryInv (resolve m next u).1.1 (resolve m next u).1.2)
    ∧ (relResolve (relResolve rm rnext ru).1.1 (relResolve rm rnext ru).1.2 ru
          = relResolve rm rnext ru
      ∧ (∀ p ∈ (relResolve rm rnext ru).1.1, ∀ q ∈ (relResolve rm rnext ru).1.1,
          p.1 ≠ q.1 → p.2.1 ≠ q.2.1)
      ∧ (List.lookup ru rm = none → (relResolve rm rnext ru).2.1 = rm.length + 1)
      ∧ RelRegistryInv (relResolve rm rnext ru).1.1 (relResolve rm rnext ru).1.2) := by
  constructor
  · obtain ⟨hnd, hids, hnext⟩ := hinv
    cases hlk : List.lookup u m with
    | some i =>
      rw [resolve_of_lookup_some hlk]
      refine ⟨resolve_of_lookup_some hlk, registry_ids_inj hids, ?_, hnd, hids, hnext⟩
      intro hnone
      exact absurd hnone (by simp)
    | none =>
      rw [resolve_of_lookup_none hlk]
      have hu : u ∉ m.map Prod.fst := lookup_none_key_not_mem hlk
      have hlk2 : List.lookup u (m ++ [(u, next)]) = some next := by
        rw [lookup_append, hlk]
        simp [List.lookup]
      have hids' : (m ++ [(u, next)]).map Prod.snd
          = List.range' 1 (m ++ [(u, next)]).length := by
        rw [List.map_append, hids, List.length_append]
        simp [List.range'_1_concat, hnext, Nat.add_comm]
      refine ⟨resolve_of_lookup_some hlk2, registry_ids_inj hids', fun _ => hnext, ?_⟩
      refine ⟨?_, hids', ?_⟩
      · rw [List.map_append]
        simp [List.nodup_append, hnd, hu]
      · simp [hnext]
  · obtain ⟨hnd, hids, hnext⟩ := hrinv
    cases hlk : List.lookup ru rm with
    | some e =>
      rw [relResolve_of_lookup_some hlk]
      refine ⟨relResolve_of_lookup_some hlk, rel_registry_ids_inj hids, ?_,
        hnd, hids, hnext⟩
      intro hnone
      exact absurd hnone (by simp)
    | none =>
      rw [relResolve_of_lookup_none hlk]
      have hu : ru ∉ rm.map Prod.fst := lookup_none_key_not_mem hlk
      have hlk2 : List.lookup ru (rm ++ [(ru, rnext, is_symmetric_relation ru)])
          = some (rnext, is_symmetric_relation ru) := by
        rw [lookup_append, hlk]
        simp [List.lookup]
      have hids' : (rm ++ [(ru, rnext, is_symmetric_relation ru)]).map (fun p => p.2.1)
          = List.range' 1 (rm ++ [(ru, rnext, is_symmetric_relation ru)]).length := by
        rw [List.map_append, hids, List.length_append]
        simp [List.range'_1_concat, hnext, Nat.add_comm]
      refine ⟨relResolve_of_lookup_some hlk2, rel_registry_ids_inj hids',
        fun _ => hnext, ?_⟩
      refine ⟨?_, hids', ?_⟩
      · rw [List.map_append]
        simp [List.nodup_append, hnd, hu]
      · simp [hnext]

/-- C8 witness. -/
theorem registry_resolve_spec_witness :
    RegistryInv [("/c/en/a", 1)] 2
    ∧ RelRegistryInv [("/r/IsA", 1, false)] 2
    ∧ ((resolve (resolve [("/c/en/a", 1)] 2 "/c/en/b").1.1
          (resolve [("/c/en/a", 1)] 2 "/c/en/b").1.2 "/c/en/b"
          = resolve [("/c/en/a", 1)] 2 "/c/en/b"
        ∧ (∀ p ∈ (resolve [("/c/en/a", 1)] 2 "/c/en/b").1.1,
            ∀ q ∈ (resolve [("/c/en/a", 1)] 2 "/c/en/b").1.1,
              p.1 ≠ q.1 → p.2 ≠ q.2)
        ∧ (List.lookup "/c/en/b" [("/c/en/a", 1)] = none →
            (resolve [("/c/en/a", 1)] 2 "/c/en/b").2
              = [("/c/en/a", 1)].length + 1)
        ∧ RegistryInv (resolve [("/c/en/a", 1)] 2 "/c/en/b").1.1
            (resolve [("/c/en/a", 1)] 2 "/c/en/b").1.2)
      ∧ (relResolve (relResolve [("/r/IsA", 1, false)] 2 "/r/RelatedTo").1.1
            (relResolve [("/r/IsA", 1, false)] 2 "/r/RelatedTo").1.2 "/r/RelatedTo"
            = relResolve [("/r/IsA", 1, false)] 2 "/r/RelatedTo"
        ∧ (∀ p ∈ (relResolve [("/r/IsA", 1, false)] 2 "/r/RelatedTo").1.1,
            ∀ q ∈ (relResolve [("/r/IsA", 1, false)] 2 "/r/RelatedTo").1.1,
              p.1 ≠ q.1 → p.2.1 ≠ q.2.1)
        ∧ (List.lookup "/r/RelatedTo" [("/r/IsA", 1, false)] = none →
            (relResolve [("/r/IsA", 1, false)] 2 "/r/RelatedTo").2.1
              = [("/r/IsA", 1, false)].length + 1)
        ∧ RelRegistryInv (relResolve [("/r/IsA", 1, false)] 2 "/r/RelatedTo").1.1
            (relResolve [("/r/IsA", 1, false)] 2 "/r/RelatedTo").1.2)) :=
  ⟨⟨by decide, by decide, rfl⟩, ⟨by decide, by decide, rfl⟩,
   registry_resolve_spec [("/c/en/a", 1)] 2 "/c/en/b" ⟨by decide, by decide, rfl⟩
     [("/r/IsA", 1, false)] 2 "/r/RelatedTo" ⟨by decide, by decide, rfl⟩⟩

/-! ## C6: flush ordering and referential integrity -/

/-- Cross-batch referential consistency of the accumulators: every pending
edge and feature row references IDs present in the in-memory registries. -/
def BatchInv (st : LoaderState) : Prop :=
  (∀ e ∈ st.edges_batch,
      (∃ p ∈ st.relations, p.2.1 = e.relation_id)
      ∧ (∃ p ∈ st.nodes, p.2 = e.start_id)
      ∧ (∃ p ∈ st.nodes, p.2 = e.end_id))
  ∧ (∀ f ∈ st.edge_features_batch,
      (∃ p ∈ st.relations, p.2.1 = f.rel_id)
      ∧ (∃ p ∈ st.nodes, p.2 = f.node_id))

theorem registerRel_lookup_self {m : List (String × Nat × Bool)} {next : Nat}
    {u : String} : (List.lookup u (registerRel m next u).1).isSome := by
  unfold registerRel
  split
  · assumption
  · rename_i h
    have hnone : List.lookup u m = none := Option.not_isSome_iff_eq_none.mp h
    rw [lookup_append, hnone]
    simp [List.lookup]

theorem lookupId_mem {m : List (String × Nat)} {u : String}
    (h : (List.lookup u m).isSome) : (u, lookupId m u) ∈ m := by
  obtain ⟨i, hi⟩ := Option.isSome_iff_exists.mp h
  rw [lookupId, hi]
  exact lookup_mem hi

theorem featureRowsFor_mem {relId : Nat} {sym : Bool} {nm : List (String × Nat)}
    {sp ep : List String} {eid : Nat} {f : FeatureRow}
    (hf : f ∈ featureRowsFor relId sym nm sp ep eid) :
    f.rel_id = relId ∧ ∃ p, (p ∈ sp ∨ p ∈ ep) ∧ f.node_id = lookupId nm p := by
  unfold featureRowsFor at hf
  split at hf <;>
    rcases List.mem_append.mp hf with h | h <;>
      obtain ⟨p, hp, rfl⟩ := List.mem_map.mp h
  · exact ⟨rfl, p, Or.inl hp, rfl⟩
  · exact ⟨rfl, p, Or.inr hp, rfl⟩
  · exact ⟨rfl, p, Or.inl hp, rfl⟩
  · exact ⟨rfl, p, Or.inr hp, rfl⟩

theorem batchInv_processLine {st : LoaderState} (line : InputLine)
    (h : BatchInv st) : BatchInv (processLine st line) := by
  by_cases h4 : line.fields.length < 4
  · simpa [processLine, h4] using h
  · obtain ⟨hE, hF⟩ := h
    simp only [processLine, if_neg h4]
    set n1 := registerUri st.nodes st.next_node_id line.startUri with hn1
    set n2 := registerUri n1.1 n1.2 line.endUri with hn2
    set rl := registerRel st.relations st.next_relation_id line.relUri with hrl
    set n3 := registerAll n2.1 n2.2 (uri_prefixes line.startUri 3) with hn3
    set n4 := registerAll n3.1 n3.2 (uri_prefixes line.endUri 3) with hn4
    have hnodes_mono : ∀ p ∈ st.nodes, p ∈ n4.1 := fun p hp =>
      registerAll_mem_mono (registerAll_mem_mono
        (registerUri_mem_mono (registerUri_mem_mono hp)))
    have hn2_mono : ∀ p ∈ n2.1, p ∈ n4.1 := fun p hp =>
      registerAll_mem_mono (registerAll_mem_mono hp)
    have hrel_mono : ∀ p ∈ st.relations, p ∈ rl.1 := fun p hp =>
      registerRel_mem_mono hp
    have hstart : (line.startUri, lookupId n2.1 line.startUri) ∈ n2.1 := by
      apply lookupId_mem
      have h1 : (List.lookup line.startUri n1.1).isSome := registerUri_lookup_self
      rw [hn2, registerUri_lookup_preserve h1]
      exact h1
    have hend : (line.endUri, lookupId n2.1 line.endUri) ∈ n2.1 :=
      lookupId_mem registerUri_lookup_self
    have hrelEntry : (line.relUri,
        (List.lookup line.relUri rl.1).getD (0, false)) ∈ rl.1 := by
      obtain ⟨e, he⟩ := Option.isSome_iff_exists.mp
        (@registerRel_lookup_self st.relations st.next_relation_id line.relUri)
      rw [← hrl] at he
      rw [he, Option.getD_some]
      exact lookup_mem he
    constructor
    · intro e he
      rcases List.mem_append.mp he with he | he
      · obtain ⟨⟨p, hp, hp2⟩, ⟨q, hq, hq2⟩, ⟨r, hr, hr2⟩⟩ := hE e he
        exact ⟨⟨p, hrel_mono p hp, hp2⟩, ⟨q, hnodes_mono q hq, hq2⟩,
          ⟨r, hnodes_mono r hr, hr2⟩⟩
      · simp only [List.mem_singleton] at he
        subst he
        exact ⟨⟨_, hrelEntry, rfl⟩, ⟨_, hn2_mono _ hstart, rfl⟩,
          ⟨_, hn2_mono _ hend, rfl⟩⟩
    · intro f hf
      rcases List.mem_append.mp hf with hf | hf
      · obtain ⟨⟨p, hp, hp2⟩, ⟨q, hq, hq2⟩⟩ := hF f hf
        exact ⟨⟨p, hrel_mono p hp, hp2⟩, ⟨q, hnodes_mono q hq, hq2⟩⟩
      · obtain ⟨hrelid, p, hp, hnid⟩ := featureRowsFor_mem hf
        refine ⟨⟨_, hrelEntry, by rw [hrelid]⟩, ?_⟩
        rcases hp with hp | hp
        · have h1 : (List.lookup p n3.1).isSome :=
            registerAll_lookup_isSome_of_mem hp
          have h2 : (List.lookup p n4.1).isSome := by
            rw [hn4, registerAll_lookup_preserve h1]
            exact h1
          exact ⟨_, lookupId_mem h2, by rw [hnid]⟩
        · have h1 : (List.lookup p n4.1).isSome :=
            registerAll_lookup_isSome_of_mem hp
          exact ⟨_, lookupId_mem h1, by rw [hnid]⟩

theorem batchInv_processLines (ls : List InputLine) :
    BatchInv (processLines initState ls) := by
  suffices h : ∀ st, BatchInv st → BatchInv (processLines st ls) from
    h initState ⟨fun e he => absurd he (List.not_mem_nil e),
      fun f hf => absurd hf (List.not_mem_nil f)⟩
  induction ls with
  | nil => exact fun st h => h
  | cons l t ih => exact fun st h => ih (processLine st l) (batchInv_processLine l h)

/-- C6: for any state the loader reaches from the start of a run, one call
to `insert_batches` issues the node writes, then the relation writes, then
the source writes, then the edge/GIN/feature writes, then a single commit
(and nothing else); every pending edge and feature row references a
relation ID and node IDs already allocated in the in-memory registries. -/
theorem flush_order_and_referential_integrity (l1 l2 l3 : Nat)
    (ls : List InputLine) :
    ∃ nw rw sw ew gw fw,
      insert_batches l1 l2 l3 (processLines initState ls)
        = nw ++ rw ++ sw ++ ew ++ gw ++ fw ++ [DbWrite.commit]
      ∧ (∀ w ∈ nw, ∃ rows, w = DbWrite.writeNodes rows true)
      ∧ (∀ w ∈ rw, ∃ rows, w = DbWrite.writeRelations rows true)
      ∧ (∀ w ∈ sw, ∃ rows, w = DbWrite.writeSources rows true)
      ∧ (∀ w ∈ ew, w = DbWrite.writeEdges
          (processLines initState ls).edges_batch false)
      ∧ (∀ w ∈ gw, w = DbWrite.writeGin
          (processLines initState ls).edges_gin_batch false)
      ∧ (∀ w ∈ fw, w = DbWrite.writeFeatures
          (processLines initState ls).edge_features_batch false)
      ∧ (∀ w ∈ nw ++ rw ++ sw ++ ew ++ gw ++ fw, w ≠ DbWrite.commit)
      ∧ (∀ e ∈ (processLines initState ls).edges_batch,
          (∃ p ∈ (processLines initState ls).relations, p.2.1 = e.relation_id)
          ∧ (∃ p ∈ (processLines initState ls).nodes, p.2 = e.start_id)
          ∧ (∃ p ∈ (processLines initState ls).nodes, p.2 = e.end_id))
      ∧ (∀ f ∈ (processLines initState ls).edge_features_batch,
          (∃ p ∈ (processLines initState ls).relations, p.2.1 = f.rel_id)
          ∧ (∃ p ∈ (processLines initState ls).nodes, p.2 = f.node_id)) := by
  obtain ⟨hE, hF⟩ := batchInv_processLines ls
  refine ⟨_, _, _, _, _, _, rfl, ?_, ?_, ?_, ?_, ?_, ?_, ?_, hE, hF⟩
  · intro w hw
    dsimp only at hw
    split at hw
    · simp at hw
    · simp only [List.mem_singleton] at hw
      exact ⟨_, hw⟩
  · intro w hw
    dsimp only at hw
    split at hw
    · simp at hw
    · simp only [List.mem_singleton] at hw
      exact ⟨_, hw⟩
  · intro w hw
    dsimp only at hw
    split at hw
    · simp at hw
    · simp only [List.mem_singleton] at hw
      exact ⟨_, hw⟩
  · intro w hw
    split at hw
    · simp at hw
    · simp only [List.mem_singleton] at hw
      exact hw
  · intro w hw
    split at hw
    · simp at hw
    · simp only [List.mem_singleton] at hw
      exact hw
  · intro w hw
    split at hw
    · simp at hw
    · simp only [List.mem_singleton] at hw
      exact hw
  · intro w hw
    simp only [List.mem_append] at hw
    rcases hw with ((((hw | hw) | hw) | hw) | hw) | hw <;>
      · try dsimp only at hw
        split at hw
        · exact absurd hw (List.not_mem_nil w)
        · simp only [List.mem_singleton] at hw
          subst hw
          intro hc
          cases hc

/-! ## C1: the edge write is a plain insert -/

theorem applyAllEdges_append (tbl : List EdgeRow) (ws1 ws2 : List DbWrite) :
    applyAllEdges tbl (ws1 ++ ws2) = applyAllEdges (applyAllEdges tbl ws1) ws2 :=
  List.foldl_append _ _ _ _

theorem applyAllEdges_skip {tbl : List EdgeRow} {ws : List DbWrite}
    (h : ∀ rows b, DbWrite.writeEdges rows b ∉ ws) :
    applyAllEdges tbl ws = tbl := by
  induction ws generalizing tbl with
  | nil => rfl
  | cons w t ih =>
    have hw : applyEdgesWrite tbl w = tbl := by
      cases w <;> try rfl
      rename_i rows b
      exact absurd (List.mem_cons_self _ _) (h rows b)
    unfold applyAllEdges
    rw [List.foldl_cons, hw]
    exact ih (fun rows b hmem => h rows b (List.mem_cons_of_mem _ hmem))

theorem foldl_plain_insert (tbl rows : List EdgeRow) :
    rows.foldl (fun t r =>
      if false && t.any (fun e => e.uri == r.uri) then t else t ++ [r]) tbl
      = tbl ++ rows := by
  induction rows generalizing tbl with
  | nil => simp
  | cons r t ih =>
    rw [List.foldl_cons]
    have hstep : (if (false && tbl.any fun e => e.uri == r.uri) = true
        then tbl else tbl ++ [r]) = tbl ++ [r] := by simp
    rw [hstep, ih]
    simp

theorem applyAllEdges_plain_write (tbl rows : List EdgeRow) :
    applyAllEdges tbl [DbWrite.writeEdges rows false] = tbl ++ rows := by
  unfold applyAllEdges
  rw [List.foldl_cons, List.foldl_nil]
  unfold applyEdgesWrite
  exact foldl_plain_insert tbl rows

/-- C1 (amended): in every flush the registry writes (nodes, relations,
sources) are insert-if-absent on `uri`, but the edge write is a plain
`INSERT` with no conflict clause: applied to an `edges` table, it appends
every accumulated row unconditionally, so a pre-existing edge URI is NOT
skipped — the flush is not idempotent at the edge level. -/
theorem edges_insert_is_plain (l1 l2 l3 : Nat) (st : LoaderState) :
    (∀ rows b, DbWrite.writeEdges rows b ∈ insert_batches l1 l2 l3 st →
        rows = st.edges_batch ∧ b = false)
    ∧ (∀ rows b, DbWrite.writeNodes rows b ∈ insert_batches l1 l2 l3 st → b = true)
    ∧ (∀ rows b, DbWrite.writeRelations rows b ∈ insert_batches l1 l2 l3 st →
        b = true)
    ∧ (∀ rows b, DbWrite.writeSources rows b ∈ insert_batches l1 l2 l3 st →
        b = true)
    ∧ (∀ tbl, applyAllEdges tbl (insert_batches l1 l2 l3 st)
        = tbl ++ st.edges_batch) := by
  refine ⟨?_, ?_, ?_, ?_, ?_⟩
  · intro rows b hmem
    simp only [insert_batches, List.mem_append] at hmem
    rcases hmem with ((((((hmem | hmem) | hmem) | hmem) | hmem) | hmem) | hmem) <;>
      · try dsimp only at hmem
        try split at hmem
        all_goals simp_all
  · intro rows b hmem
    simp only [insert_batches, List.mem_append] at hmem
    rcases hmem with ((((((hmem | hmem) | hmem) | hmem) | hmem) | hmem) | hmem) <;>
      · try dsimp only at hmem
        try split at hmem
        all_goals simp_all
  · intro rows b hmem
    simp only [insert_batches, List.mem_append] at hmem
    rcases hmem with ((((((hmem | hmem) | hmem) | hmem) | hmem) | hmem) | hmem) <;>
      · try dsimp only at hmem
        try split at hmem
        all_goals simp_all
  · intro rows b hmem
    simp only [insert_batches, List.mem_append] at hmem
    rcases hmem with ((((((hmem | hmem) | hmem) | hmem) | hmem) | hmem) | hmem) <;>
      · try dsimp only at hmem
        try split at hmem
        all_goals simp_all
  · intro tbl
    have hblock : ∀ (t : List EdgeRow) (ws : List DbWrite),
        (∀ rows b, DbWrite.writeEdges rows b ∉ ws) →
          applyAllEdges t ws = t := fun _ _ h => applyAllEdges_skip h
    simp only [insert_batches]
    rw [applyAllEdges_append, applyAllEdges_append, applyAllEdges_append,
      applyAllEdges_append, applyAllEdges_append, applyAllEdges_append]
    rw [hblock _ [DbWrite.commit] (by
      intro rows b hmem
      simp at hmem)]
    rw [hblock _ _ (by
      intro rows b hmem
      split at hmem <;> simp at hmem)]
    rw [hblock _ _ (by
      intro rows b hmem
      split at hmem <;> simp at hmem)]
    by_cases hE : st.edges_batch.isEmpty
    · rw [if_pos hE]
      have hnil : st.edges_batch = [] := List.isEmpty_iff.mp hE
      have happly_nil : ∀ t : List EdgeRow, applyAllEdges t [] = t := fun _ => rfl
      rw [happly_nil]
      rw [hblock _ _ (by
        intro rows b hmem
        split at hmem <;> simp at hmem)]
      rw [hblock _ _ (by
        intro rows b hmem
        split at hmem <;> simp at hmem)]
      rw [hblock _ _ (by
        intro rows b hmem
        split at hmem <;> simp at hmem)]
      rw [hnil]
      simp
    · rw [if_neg hE, applyAllEdges_plain_write]
      rw [hblock _ _ (by
        intro rows b hmem
        split at hmem <;> simp at hmem)]
      rw [hblock _ _ (by
        intro rows b hmem
        split at hmem <;> simp at hmem)]
      rw [hblock _ _ (by
        intro rows b hmem
        split at hmem <;> simp at hmem)]

/-- C1 counterexample: flushing a batch whose single edge URI `/a/x`
already exists in the `edges` table stores the URI twice (the write is a
plain insert: its only edges statement carries no insert-if-absent flag),
contradicting first-write-wins dedup at the storage boundary. -/
theorem edges_duplicate_uri_cex :
    ((applyAllEdges [⟨99, "/a/x", 1, 1, 2, Json.num 1, ""⟩]
        (insert_batches 0 0 0 (processLine initState
          ⟨["/a/x", "/r/IsA", "/c/en/a", "/c/en/b"], .absent⟩))).filter
        (fun e => e.uri == "/a/x")).length = 2
    ∧ (insert_batches 0 0 0 (processLine initState
        ⟨["/a/x", "/r/IsA", "/c/en/a", "/c/en/b"], .absent⟩)).filterMap
        (fun w => match w with
          | DbWrite.writeEdges _ b => some b
          | _ => none) = [false] := by
  decide

/-! ## C9: deterministic document serialization -/

theorem perm_lookup_eq {m1 m2 : List (String × Json)} (hperm : m1.Perm m2) :
    (m1.map Prod.fst).Nodup → ∀ k, List.lookup k m1 = List.lookup k m2 := by
  induction hperm with
  | nil => exact fun _ _ => rfl
  | cons a h ih =>
    intro hnd k
    obtain ⟨x, v⟩ := a
    rw [List.map_cons] at hnd
    have hnd' := (List.nodup_cons.mp hnd).2
    cases hxk : (k == x) <;> simp [List.lookup, hxk, ih hnd' k]
  | swap a b l =>
    intro hnd k
    obtain ⟨xa, va⟩ := a
    obtain ⟨xb, vb⟩ := b
    rw [List.map_cons, List.map_cons] at hnd
    have hab : xb ≠ xa :=
      fun hc => (List.nodup_cons.mp hnd).1 (by rw [hc]; exact List.mem_cons_self _ _)
    by_cases hka : k = xa
    · subst hka
      have hfb : (k == xb) = false :=
        beq_false_of_ne (fun hc => hab (by rw [hc]))
      simp [List.lookup, hfb]
    · by_cases hkb : k = xb
      · subst hkb
        have hfa : (k == xa) = false := beq_false_of_ne hka
        simp [List.lookup, hfa]
      · have hfa : (k == xa) = false := beq_false_of_ne hka
        have hfb : (k == xb) = false := beq_false_of_ne hkb
        simp [List.lookup, hfa, hfb]
  | trans h1 h2 ih1 ih2 =>
    intro hnd k
    have hnd2 : _ := ((h1.map Prod.fst).nodup_iff).mp hnd
    exact (ih1 hnd k).trans (ih2 hnd2 k)

/-- C9: two lines with the same four URI fields whose metadata objects are
key-order permutations of each other (same keys, identical values)
produce identical accumulated edge rows and GIN rows — in particular
byte-identical serialized edge documents and search documents. -/
theorem edge_document_determinism (st : LoaderState) (fields : List String)
    (m1 m2 : List (String × Json)) (hperm : m1.Perm m2)
    (hnd : (m1.map Prod.fst).Nodup) :
    (processLine st ⟨fields, .parsed m1⟩).edges_batch
      = (processLine st ⟨fields, .parsed m2⟩).edges_batch
    ∧ (processLine st ⟨fields, .parsed m1⟩).edges_gin_batch
      = (processLine st ⟨fields, .parsed m2⟩).edges_gin_batch := by
  have hlk : ∀ k, List.lookup k m1 = List.lookup k m2 := perm_lookup_eq hperm hnd
  have hstate : processLine st ⟨fields, .parsed m1⟩
      = processLine st ⟨fields, .parsed m2⟩ := by
    by_cases h4 : fields.length < 4
    · simp [processLine, h4]
    · simp only [processLine, metaFields, edgeDataJson,
        InputLine.edgeUri, InputLine.relUri, InputLine.startUri, InputLine.endUri,
        if_neg h4, hlk]
  exact ⟨by rw [hstate], by rw [hstate]⟩

/-- C9 witness. -/
theorem edge_document_determinism_witness :
    [("weight", Json.num 2), ("surfaceText", Json.str "t")].Perm
      [("surfaceText", Json.str "t"), ("weight", Json.num 2)]
    ∧ ([("weight", Json.num 2),
        ("surfaceText", Json.str "t")].map Prod.fst).Nodup
    ∧ ((processLine initState ⟨["/a/x", "/r/IsA", "/c/en/a", "/c/en/b"],
          .parsed [("weight", Json.num 2), ("surfaceText", Json.str "t")]⟩).edges_batch
        = (processLine initState ⟨["/a/x", "/r/IsA", "/c/en/a", "/c/en/b"],
          .parsed [("surfaceText", Json.str "t"),
            ("weight", Json.num 2)]⟩).edges_batch
      ∧ (processLine initState ⟨["/a/x", "/r/IsA", "/c/en/a", "/c/en/b"],
          .parsed [("weight", Json.num 2),
            ("surfaceText", Json.str "t")]⟩).edges_gin_batch
        = (processLine initState ⟨["/a/x", "/r/IsA", "/c/en/a", "/c/en/b"],
          .parsed [("surfaceText", Json.str "t"),
            ("weight", Json.num 2)]⟩).edges_gin_batch) :=
  ⟨List.Perm.swap ("surfaceText", Json.str "t") ("weight", Json.num 2) [],
   by decide,
   edge_document_determinism initState ["/a/x", "/r/IsA", "/c/en/a", "/c/en/b"]
     [("weight", Json.num 2), ("surfaceText", Json.str "t")]
     [("surfaceText", Json.str "t"), ("weight", Json.num 2)]
     (List.Perm.swap ("surfaceText", Json.str "t") ("weight", Json.num 2) [])
     (by decide)⟩

/-! ## C7: the ranked-features view -/

/-- The SQL `ORDER BY e.weight DESC, e.id` of `create_ranked_features_view`:
row `a` precedes row `b` iff `a` has the larger weight, or equal weight and
the smaller edge ID. Rows are (edge id, weight) pairs of one partition. -/
def rankBefore (a b : Nat × ℚ) : Bool :=
  decide (b.2 < a.2) || (a.2 == b.2 && decide (a.1 < b.1))

/-- The joined rows of one `(node_id, rel_id, direction)` partition of the
view: `FROM edge_features ef, edges e WHERE e.id = ef.edge_id` restricted
to one key, keeping each matched edge's (id, weight). -/
def viewPartition (feats : List FeatureRow) (edges : List (Nat × ℚ))
    (node rel : Nat) (dir : Int) : List (Nat × ℚ) :=
  (feats.filter (fun f => f.node_id == node && f.rel_id == rel
      && f.direction == dir)).filterMap
    (fun f => edges.find? (fun e => e.1 == f.edge_id))

/-- `row_number()` under a total order: 1 plus the number of partition rows
strictly preceding `r`. -/
def rankOf (part : List (Nat × ℚ)) (r : Nat × ℚ) : Nat :=
  1 + (part.filter (fun q => rankBefore q r)).length

theorem filter_length_le_of_imp {α : Type} {p q : α → Bool} {l : List α}
    (h : ∀ x ∈ l, p x = true → q x = true) :
    (l.filter p).length ≤ (l.filter q).length := by
  induction l with
  | nil => simp
  | cons a t ih =>
    have ht := ih (fun x hx => h x (List.mem_cons_of_mem _ hx))
    cases hpa : p a with
    | false =>
      cases hqa : q a <;> simp [List.filter_cons, hpa, hqa] <;> omega
    | true =>
      have hqa := h a (List.mem_cons_self _ _) hpa
      simp [List.filter_cons, hpa, hqa]
      omega

theorem filter_length_lt {α : Type} {p q : α → Bool} {l : List α} {a : α}
    (h : ∀ x ∈ l, p x = true → q x = true) (ha : a ∈ l)
    (hqa : q a = true) (hpa : p a = false) :
    (l.filter p).length < (l.filter q).length := by
  induction l with
  | nil => cases ha
  | cons b t ih =>
    rcases List.mem_cons.mp ha with hb | hb
    · subst hb
      have hle := filter_length_le_of_imp
        (fun x hx => h x (List.mem_cons_of_mem _ hx))
      simp [List.filter_cons, hpa, hqa]
      omega
    · have hlt := ih (fun x hx => h x (List.mem_cons_of_mem _ hx)) hb
      cases hpb : p b with
      | false =>
        cases hqb : q b <;> simp [List.filter_cons, hpb, hqb] <;> omega
      | true =>
        have hqb := h b (List.mem_cons_self _ _) hpb
        simp [List.filter_cons, hpb, hqb]
        omega

theorem rankBefore_iff {a b : Nat × ℚ} :
    rankBefore a b = true ↔ (b.2 < a.2 ∨ (a.2 = b.2 ∧ a.1 < b.1)) := by
  simp [rankBefore]

theorem rankBefore_irrefl (a : Nat × ℚ) : rankBefore a a = false := by
  simp [rankBefore]

theorem rankBefore_trans {a b c : Nat × ℚ} (h1 : rankBefore a b = true)
    (h2 : rankBefore b c = true) : rankBefore a c = true := by
  rw [rankBefore_iff] at *
  rcases h1 with h1 | ⟨h1, h1'⟩ <;> rcases h2 with h2 | ⟨h2, h2'⟩
  · exact Or.inl (lt_trans h2 h1)
  · exact Or.inl (h2 ▸ h1)
  · exact Or.inl (by rw [h1]; exact h2)
  · exact Or.inr ⟨h1.trans h2, lt_trans h1' h2'⟩

theorem rankBefore_total {a b : Nat × ℚ} (h : a.1 ≠ b.1) :
    rankBefore a b = true ∨ rankBefore b a = true := by
  rcases lt_trichotomy a.2 b.2 with hw | hw | hw
  · exact Or.inr (rankBefore_iff.mpr (Or.inl hw))
  · rcases Nat.lt_or_ge a.1 b.1 with hid | hid
    · exact Or.inl (rankBefore_iff.mpr (Or.inr ⟨hw, hid⟩))
    · have hba : b.1 < a.1 := lt_of_le_of_ne hid (Ne.symm h)
      exact Or.inr (rankBefore_iff.mpr (Or.inr ⟨hw.symm, hba⟩))
  · exact Or.inl (rankBefore_iff.mpr (Or.inl hw))

/-- C7: in each `(node_id, rel_id, direction)` partition of the view
(with the partition's edge IDs distinct), `rankOf` is 1-based, bounded by
the partition size, and strictly monotone in exactly the `ORDER BY weight
DESC, id ASC` order: for distinct rows, `rankOf r < rankOf r'` iff `r`
has larger weight, or equal weight and smaller edge ID. -/
theorem ranked_view_rank_spec (feats : List FeatureRow)
    (edges : List (Nat × ℚ)) (node rel : Nat) (dir : Int)
    (hnd : ((viewPartition feats edges node rel dir).map Prod.fst).Nodup) :
    ∀ r ∈ viewPartition feats edges node rel dir,
      1 ≤ rankOf (viewPartition feats edges node rel dir) r
      ∧ rankOf (viewPartition feats edges node rel dir) r
          ≤ (viewPartition feats edges node rel dir).length
      ∧ ∀ r' ∈ viewPartition feats edges node rel dir, r ≠ r' →
          (rankOf (viewPartition feats edges node rel dir) r
              < rankOf (viewPartition feats edges node rel dir) r'
            ↔ rankBefore r r' = true) := by
  set part := viewPartition feats edges node rel dir with hpart
  have hfwd : ∀ r ∈ part, ∀ r' ∈ part, rankBefore r r' = true →
      rankOf part r < rankOf part r' := by
    intro r hr r' hr' hb
    unfold rankOf
    have := filter_length_lt (l := part) (p := fun q => rankBefore q r)
      (q := fun q => rankBefore q r')
      (fun x _ hx => rankBefore_trans hx hb) hr hb (rankBefore_irrefl r)
    omega
  intro r hr
  refine ⟨by unfold rankOf; omega, ?_, ?_⟩
  · unfold rankOf
    have hlt : (part.filter (fun q => rankBefore q r)).length < part.length := by
      have := filter_length_lt (l := part) (p := fun q => rankBefore q r)
        (q := fun _ => true) (fun x _ _ => rfl) hr rfl (rankBefore_irrefl r)
      simpa using this
    omega
  · intro r' hr' hne
    constructor
    · intro hlt
      have hid : r.1 ≠ r'.1 := by
        intro hc
        exact hne (List.inj_on_of_nodup_map hnd hr hr' hc)
      rcases rankBefore_total hid with h | h
      · exact h
      · exact absurd (hfwd r' hr' r hr h) (by omega)
    · exact hfwd r hr r' hr'

/-- C7 witness: edges A=(1, 9/10), B=(2, 9/10), C=(3, 1/2) sharing the
key (node 5, relation 7, direction 1) rank A=1, B=2, C=3. -/
theorem ranked_view_rank_spec_witness :
    (((viewPartition [⟨7, 1, 5, 1⟩, ⟨7, 1, 5, 2⟩, ⟨7, 1, 5, 3⟩]
        [(1, Rat.mk' 9 10 (by decide) (by decide)),
         (2, Rat.mk' 9 10 (by decide) (by decide)),
         (3, Rat.mk' 1 2 (by decide) (by decide))] 5 7 1).map Prod.fst).Nodup)
    ∧ (∀ r ∈ viewPartition [⟨7, 1, 5, 1⟩, ⟨7, 1, 5, 2⟩, ⟨7, 1, 5, 3⟩]
        [(1, Rat.mk' 9 10 (by decide) (by decide)),
         (2, Rat.mk' 9 10 (by decide) (by decide)),
         (3, Rat.mk' 1 2 (by decide) (by decide))] 5 7 1,
        1 ≤ rankOf (viewPartition [⟨7, 1, 5, 1⟩, ⟨7, 1, 5, 2⟩, ⟨7, 1, 5, 3⟩]
            [(1, Rat.mk' 9 10 (by decide) (by decide)),
             (2, Rat.mk' 9 10 (by decide) (by decide)),
             (3, Rat.mk' 1 2 (by decide) (by decide))] 5 7 1) r
        ∧ rankOf (viewPartition [⟨7, 1, 5, 1⟩, ⟨7, 1, 5, 2⟩, ⟨7, 1, 5, 3⟩]
            [(1, Rat.mk' 9 10 (by decide) (by decide)),
             (2, Rat.mk' 9 10 (by decide) (by decide)),
             (3, Rat.mk' 1 2 (by decide) (by decide))] 5 7 1) r
          ≤ (viewPartition [⟨7, 1, 5, 1⟩, ⟨7, 1, 5, 2⟩, ⟨7, 1, 5, 3⟩]
            [(1, Rat.mk' 9 10 (by decide) (by decide)),
             (2, Rat.mk' 9 10 (by decide) (by decide)),
             (3, Rat.mk' 1 2 (by decide) (by decide))] 5 7 1).length
        ∧ ∀ r' ∈ viewPartition [⟨7, 1, 5, 1⟩, ⟨7, 1, 5, 2⟩, ⟨7, 1, 5, 3⟩]
            [(1, Rat.mk' 9 10 (by decide) (by decide)),
             (2, Rat.mk' 9 10 (by decide) (by decide)),
             (3, Rat.mk' 1 2 (by decide) (by decide))] 5 7 1, r ≠ r' →
            (rankOf (viewPartition [⟨7, 1, 5, 1⟩, ⟨7, 1, 5, 2⟩, ⟨7, 1, 5, 3⟩]
                [(1, Rat.mk' 9 10 (by decide) (by decide)),
                 (2, Rat.mk' 9 10 (by decide) (by decide)),
                 (3, Rat.mk' 1 2 (by decide) (by decide))] 5 7 1) r
                < rankOf (viewPartition [⟨7, 1, 5, 1⟩, ⟨7, 1, 5, 2⟩, ⟨7, 1, 5, 3⟩]
                [(1, Rat.mk' 9 10 (by decide) (by decide)),
                 (2, Rat.mk' 9 10 (by decide) (by decide)),
                 (3, Rat.mk' 1 2 (by decide) (by decide))] 5 7 1) r'
              ↔ rankBefore r r' = true))
    ∧ rankOf (viewPartition [⟨7, 1, 5, 1⟩, ⟨7, 1, 5, 2⟩, ⟨7, 1, 5, 3⟩]
        [(1, Rat.mk' 9 10 (by decide) (by decide)),
         (2, Rat.mk' 9 10 (by decide) (by decide)),
         (3, Rat.mk' 1 2 (by decide) (by decide))] 5 7 1)
        (1, Rat.mk' 9 10 (by decide) (by decide)) = 1
    ∧ rankOf (viewPartition [⟨7, 1, 5, 1⟩, ⟨7, 1, 5, 2⟩, ⟨7, 1, 5, 3⟩]
        [(1, Rat.mk' 9 10 (by decide) (by decide)),
         (2, Rat.mk' 9 10 (by decide) (by decide)),
         (3, Rat.mk' 1 2 (by decide) (by decide))] 5 7 1)
        (2, Rat.mk' 9 10 (by decide) (by decide)) = 2
    ∧ rankOf (viewPartition [⟨7, 1, 5, 1⟩, ⟨7, 1, 5, 2⟩, ⟨7, 1, 5, 3⟩]
        [(1, Rat.mk' 9 10 (by decide) (by decide)),
         (2, Rat.mk' 9 10 (by decide) (by decide)),
         (3, Rat.mk' 1 2 (by decide) (by decide))] 5 7 1)
        (3, Rat.mk' 1 2 (by decide) (by decide)) = 3 :=
  ⟨by decide,
   ranked_view_rank_spec [⟨7, 1, 5, 1⟩, ⟨7, 1, 5, 2⟩, ⟨7, 1, 5, 3⟩]
     [(1, Rat.mk' 9 10 (by decide) (by decide)),
      (2, Rat.mk' 9 10 (by decide) (by decide)),
      (3, Rat.mk' 1 2 (by decide) (by decide))] 5 7 1 (by decide),
   by decide, by decide, by decide⟩

end ConceptNet
